import Mathlib

/-!
Verification development for the handybars templating engine.

The definitions below are a shallow embedding of the engine's source:
`src/parse.rs` (locations, errors, segment and path parsing, the `Tokenize`
iterator), `src/value.rs` (the string/object value tree), `src/lib.rs`
(`Variable` paths and `parse_with_terminator`) and `src/context.rs`
(`define`, `get_value`, `expand`, `render`).

Byte buffers are modelled as `List Char` (every input of interest is ASCII,
where bytes and characters coincide).  Loops over indices are modelled with
a fuel parameter; each call site supplies fuel strictly larger than the
number of iterations the source can perform, so the fuel-exhaustion branches
are unreachable.  A slice index that the source performs without a bounds
check is modelled with `List.get?`, surfacing a panic as an explicit
out-of-bounds outcome.
-/

set_option maxRecDepth 10000

/-- Source location (0-based line and column), mirroring `parse::Location`. -/
structure Location where
  line : Nat
  col : Nat
deriving DecidableEq

/-- Error kinds reported by the parsers, mirroring `parse::ErrorKind`. -/
inductive ErrorKind where
  | emptyVariableSegment
  | newlineInVariableSegment
  | spaceInPath
  | invalidCharacter (token : Char)
  | tooManyVariablesInBlock
deriving DecidableEq

/-- Parse error with location, mirroring `parse::Error`. -/
structure PError where
  offset : Location
  ty : ErrorKind
deriving DecidableEq

/-- `Error::new((col, line), ty)`: the tuple order of the source is
(column, line). -/
def mkErr (col line : Nat) (ty : ErrorKind) : PError :=
  ⟨⟨line, col⟩, ty⟩

/-- `Error::add_offset`: componentwise addition of locations. -/
def PError.addOffset (e : PError) (o : Location) : PError :=
  ⟨⟨e.offset.line + o.line, e.offset.col + o.col⟩, e.ty⟩

/-- `u8::is_ascii_whitespace` for the byte a character stands for. -/
def isAsciiWhitespace (c : Char) : Bool :=
  c = ' ' || c = '\t' || c = '\n' || c = '\x0c' || c = '\r'

/-- The reserved punctuation set of `is_valid_identifier_ch`, as byte codes:
! " # % & apostrophe ( ) * + | . / ; < = > @ [ ] backslash ^ backtick { } , ~ -/
def reservedPunct : List Nat :=
  [33, 34, 35, 37, 38, 39, 40, 41, 42, 43, 124, 46, 47, 59, 60, 61, 62, 64,
   91, 93, 92, 94, 96, 123, 125, 44, 126]

/-- `parse::is_valid_identifier_ch`. -/
def isValidIdentifierCh (c : Char) : Bool :=
  !(isAsciiWhitespace c || reservedPunct.contains c.toNat)

/-- Scanner core of `try_parse_variable_segment`: the length of the
identifier run, scanning from `offset` relative to the original start. -/
def segScan : List Char → Nat → Except PError Nat
  | [], offset => .ok offset
  | c :: rest, offset =>
    if c = '\n' then .error (mkErr offset 0 .newlineInVariableSegment)
    else if isValidIdentifierCh c = false then
      if offset = 0 then .error (mkErr 0 0 .emptyVariableSegment)
      else .ok offset
    else segScan rest (offset + 1)

/-- `parse::try_parse_variable_segment`. -/
def tryParseVariableSegment (input : List Char) : Except PError (List Char) :=
  if input = [] then .error (mkErr 0 0 .emptyVariableSegment)
  else
    match segScan input 0 with
    | .error e => .error e
    | .ok n => .ok (input.take n)

/-- The space/dot lookahead after the first segment in
`parse_with_terminator`; returns (found_space, found_dot). -/
def spaceDotScan : List Char → Bool → Bool × Bool
  | [], foundSpace => (foundSpace, false)
  | c :: rest, foundSpace =>
    if c = ' ' then spaceDotScan rest true
    else if c = '.' then (foundSpace, true)
    else (foundSpace, false)

/-- Variable path, mirroring `VariableInner` (`Segments` vs `Single`). -/
inductive Variable where
  | segments (segs : List (List Char))
  | single (s : List Char)
deriving DecidableEq

/-- `Variable::len`: length in bytes including separators. -/
def Variable.len : Variable → Nat
  | .segments s => (s.map List.length).sum + (s.length - 1)
  | .single s => s.length

/-- `Display for Variable`: segments joined by dots. -/
def Variable.display : Variable → List Char
  | .segments s => List.intercalate ['.'] s
  | .single s => s

/-- `Variable::from_parts`.  The source asserts that the part list and each
part are non-empty (a panic otherwise); those contract violations do not
occur in the claims, and the empty-list case here is an arbitrary value. -/
def Variable.fromParts : List (List Char) → Variable
  | [] => .single []
  | [x] => .single x
  | xs => .segments xs

/-- The character class of the prefix scan in `parse_with_terminator`:
identifier characters, space, dot. -/
def validRunCh (c : Char) : Bool :=
  isValidIdentifierCh c || c = ' ' || c = '.'

/-- `Result::is_ok`. -/
def isOkB {ε α : Type} : Except ε α → Bool
  | .ok _ => true
  | .error _ => false

deriving instance DecidableEq for Except

/-- The multi-segment loop of `parse_with_terminator`.  `pwt` stands for the
recursive `parse_with_terminator` call used by the too-many-variables
lookahead.  The fuel bounds the loop iterations; callers supply more fuel
than the source's loop can consume, so the fuel-0 branch is unreachable. -/
def pwLoopF (pwt : List Char → Bool → Except PError Variable) :
    Nat → List Char → Nat → List (List Char) → Nat →
    Except PError (List (List Char))
  | 0, _, _, segments, _ => .ok segments
  | fuel+1, chars, validLen, segments, head =>
    if head = validLen ∨ chars.getD head ' ' = ' ' then
      let head2 := head + ((chars.drop head).takeWhile (fun c => c = ' ')).length
      if isOkB (pwt (chars.drop head2) false) = true then
        .error (mkErr head2 0 .tooManyVariablesInBlock)
      else .ok segments
    else if chars.getD head ' ' = '.' then
      if head + 1 = validLen ∨ chars.getD (head + 1) ' ' = ' ' then
        .error (mkErr head 0 .emptyVariableSegment)
      else pwLoopF pwt fuel chars validLen segments (head + 1)
    else
      match tryParseVariableSegment (chars.drop head) with
      | .error e => .error (e.addOffset ⟨0, head⟩)
      | .ok seg => pwLoopF pwt fuel chars validLen (segments ++ [seg]) (head + seg.length)

/-- `parse_with_terminator`, with fuel bounding the nesting depth of the
too-many-variables lookahead (each nested call is on a strictly shorter
suffix, so `length + 1` fuel always suffices). -/
def pwtF : Nat → List Char → Bool → Except PError Variable
  | 0, _, _ => .error (mkErr 0 0 .emptyVariableSegment)
  | fuel+1, s, errorIfInvalid =>
    let validLen := (s.takeWhile validRunCh).length
    if errorIfInvalid = true ∧ validLen ≠ s.length then
      .error (mkErr validLen 0 (.invalidCharacter (s.getD validLen ' ')))
    else if validLen = 0 then .error (mkErr 0 0 .emptyVariableSegment)
    else
      match tryParseVariableSegment s with
      | .error e => .error e
      | .ok seg =>
        let len := seg.length
        let fsfd := spaceDotScan (s.drop len) false
        if (fsfd.1 = true ∨ len = validLen) ∧ fsfd.2 = true then
          .error (mkErr len 0 .spaceInPath)
        else if len = validLen then .ok (.single seg)
        else
          match pwLoopF (pwtF fuel) (s.length + 1) s validLen [seg] len with
          | .error e => .error e
          | .ok segs =>
            match segs with
            | [x] => .ok (.single x)
            | other => .ok (.segments other)

/-- `parse_with_terminator` entry point with always-sufficient fuel. -/
def parseWithTerminator (s : List Char) (errorIfInvalid : Bool) :
    Except PError Variable :=
  pwtF (s.length + 1) s errorIfInvalid

/-- `FromStr for Variable`. -/
def Variable.fromStr (s : List Char) : Except PError Variable :=
  parseWithTerminator s true

/-- The `}}`-search loop ending `parse_template_inner`. -/
def ptiScanF (input : List Char) (v : Variable) : Nat → Nat → Option (Except PError (Variable × Nat))
  | 0, _ => none
  | fuel+1, head =>
    if head < input.length - 1 then
      if input.getD head ' ' = '}' ∧ input.getD (head + 1) ' ' = '}' then
        some (.ok (v, head + 2))
      else ptiScanF input v fuel (head + 1)
    else none

/-- `parse::parse_template_inner`. -/
def parseTemplateInner (input : List Char) : Option (Except PError (Variable × Nat)) :=
  let head0 := (input.takeWhile (fun c => c = ' ')).length
  match parseWithTerminator (input.drop head0) false with
  | .error e =>
    if e = mkErr 0 0 .emptyVariableSegment then none
    else some (.error (e.addOffset ⟨0, head0⟩))
  | .ok v => ptiScanF input v (input.length + 1) (head0 + v.len)

/-- Tokenizer state, mirroring the fields of `parse::Tokenize`. -/
structure Tokenize where
  chars : List Char
  head : Nat
  tail : Nat
  row : Nat
  col : Nat
  hitError : Bool
  varNext : Option Variable
deriving DecidableEq

/-- `Tokenize::new`. -/
def Tokenize.new (input : List Char) : Tokenize :=
  ⟨input, 0, 0, 0, 0, false, none⟩

/-- Tokens, mirroring `parse::Token`. -/
inductive Token where
  | variable (v : Variable)
  | str (s : List Char)
deriving DecidableEq

/-- One outcome of `next`: an item together with the successor state, end of
iteration, or an out-of-bounds byte access (an index panic in the source). -/
inductive TokStep where
  | item (x : Except PError Token) (s : Tokenize)
  | done
  | oob
deriving DecidableEq

/-- Row/column/head bookkeeping for a byte outside any placeholder. -/
def advanceState (s : Tokenize) : Tokenize :=
  if s.chars.getD s.head ' ' = '\n' then
    { s with col := 0, row := s.row + 1, head := s.head + 1 }
  else { s with col := s.col + 1, head := s.head + 1 }

/-- The scanning loop inside `Tokenize::next`.  When the byte at `head` is
an opening brace the source reads index `head + 1` without a bounds check;
that access is modelled with `List.get?`, and `.oob` is the panic. -/
def tokLoopF : Nat → Tokenize → TokStep
  | 0, _ => .done
  | fuel+1, s =>
    if s.head < s.chars.length then
      if s.chars.getD s.head ' ' = '{' then
        match s.chars.get? (s.head + 1) with
        | none => .oob
        | some c2 =>
          if c2 = '{' then
            match parseTemplateInner (s.chars.drop (s.head + 2)) with
            | some (.ok (v, len)) =>
              let s2 : Tokenize :=
                { s with head := s.head + len + 2, tail := s.head + len + 2,
                         col := s.col + len + 2 }
              if s.tail ≠ s.head then
                .item (.ok (.str ((s.chars.drop s.tail).take (s.head - s.tail))))
                  { s2 with varNext := some v }
              else .item (.ok (.variable v)) s2
            | some (.error e) =>
              .item (.error (e.addOffset ⟨s.row, s.col + 2⟩)) { s with hitError := true }
            | none => tokLoopF fuel (advanceState s)
          else tokLoopF fuel (advanceState s)
      else tokLoopF fuel (advanceState s)
    else
      if s.tail ≠ s.chars.length - 1 then
        .item (.ok (.str (s.chars.drop s.tail))) { s with tail := s.chars.length - 1 }
      else .done

/-- `Iterator::next for Tokenize`. -/
def Tokenize.next (s : Tokenize) : TokStep :=
  match s.varNext with
  | some v => .item (.ok (.variable v)) { s with varNext := none }
  | none =>
    if s.hitError = true then .done
    else if s.chars.length ≤ s.head then
      if s.tail < s.chars.length - 1 then
        .item (.ok (.str (s.chars.drop s.tail))) { s with tail := s.chars.length - 1 }
      else .done
    else tokLoopF (s.chars.length + 1 - s.head) s

/-- Collecting the token stream, mirroring `parse::tokenize` (`collect` into
a `Result`, which stops at the first error).  `none` models a panic, or
exhausted fuel, which never happens for the fuel `tokenize` supplies. -/
def tokensFrom : Nat → Tokenize → Option (Except PError (List Token))
  | 0, _ => none
  | fuel+1, s =>
    match Tokenize.next s with
    | .done => some (.ok [])
    | .oob => none
    | .item (.error e) _ => some (.error e)
    | .item (.ok t) s2 =>
      match tokensFrom fuel s2 with
      | none => none
      | some (.error e) => some (.error e)
      | some (.ok ts) => some (.ok (t :: ts))

/-- `parse::tokenize`. -/
def tokenize (input : List Char) : Option (Except PError (List Token)) :=
  tokensFrom (2 * input.length + 4) (Tokenize.new input)

/-- Value tree, mirroring `value::Value`: a string leaf or an object.  The
object's `BTreeMap` is modelled as an association list kept sorted by key. -/
inductive Value where
  | str (s : List Char)
  | obj (values : List (List Char × Value))

/-- Lexicographic byte order on property names (`Ord for str`). -/
def keyLt : List Char → List Char → Bool
  | [], [] => false
  | [], _ :: _ => true
  | _ :: _, [] => false
  | a :: as, b :: bs => if a = b then keyLt as bs else decide (a.toNat < b.toNat)

/-- `BTreeMap::insert` (used by `Object::add_property`) on the sorted
association-list model; an existing binding for the key is replaced. -/
def objInsert : List (List Char × Value) → List Char → Value → List (List Char × Value)
  | [], k, v => [(k, v)]
  | (k2, v2) :: rest, k, v =>
    if k = k2 then (k, v) :: rest
    else if keyLt k k2 = true then (k, v) :: (k2, v2) :: rest
    else (k2, v2) :: objInsert rest k v

/-- `BTreeMap::get` / `Object::property`. -/
def objGet : List (List Char × Value) → List Char → Option Value
  | [], _ => none
  | (k2, v2) :: rest, k => if k = k2 then some v2 else objGet rest k

/-- `Value::as_object`. -/
def Value.asObject : Value → Option (List (List Char × Value))
  | .obj o => some o
  | .str _ => none

/-- `Value::is_object`. -/
def Value.isObject : Value → Bool
  | .obj _ => true
  | .str _ => false

/-- Rendering context, mirroring `Context`: a map from top-level names to
values (the `HashMap` is modelled with the same association-list map; the
claims only exercise lookup and insert, which agree). -/
structure Context where
  vars : List (List Char × Value)

/-- The `force_object!` macro of `context.rs`: make the entry an object,
replacing a string leaf with a fresh empty object and creating a missing
entry as an empty object. -/
def forceObjectVal : Option Value → List (List Char × Value)
  | some (.str _) => []
  | some (.obj o) => o
  | none => []

/-- The intermediate-segment walk of `Context::define`: force an object at
each level and `add_property` the value at the last segment. -/
def objDefineChain : List (List Char × Value) → List (List Char) → List Char → Value →
    List (List Char × Value)
  | o, [], last, v => objInsert o last v
  | o, level :: rest, last, v =>
    objInsert o level (.obj (objDefineChain (forceObjectVal (objGet o level)) rest last v))

/-- `Context::define`.  For a `Segments` path the source walks
`segs[0], …, segs[n-2]` through `force_object!` and writes the value at the
last segment; for a `Single` path an existing object entry absorbs the value
as a property named by the path itself.  (`Segments` with an empty list is
never constructed by the source.) -/
def Context.define (ctx : Context) (var : Variable) (value : Value) : Context :=
  match var with
  | .segments segs =>
    match segs with
    | [] => ctx
    | s0 :: rest =>
      let last := (s0 :: rest).getLastD []
      let mids := ((s0 :: rest).dropLast).drop 1
      ⟨objInsert ctx.vars s0
        (.obj (objDefineChain (forceObjectVal (objGet ctx.vars s0)) mids last value))⟩
  | .single s =>
    match objGet ctx.vars s with
    | some (.str _) => ⟨objInsert ctx.vars s value⟩
    | some (.obj o) => ⟨objInsert ctx.vars s (.obj (objInsert o s value))⟩
    | none => ⟨objInsert ctx.vars s value⟩

/-- The drill-down walk of `Context::get_value` over intermediate levels. -/
def valueWalk : Value → List (List Char) → Option Value
  | v, [] => some v
  | v, level :: rest =>
    match v.asObject with
    | none => none
    | some o =>
      match objGet o level with
      | none => none
      | some v2 => valueWalk v2 rest

/-- `Context::get_value`. -/
def Context.getValue (ctx : Context) (var : Variable) : Option Value :=
  match var with
  | .segments segs =>
    match segs with
    | [] => none
    | s0 :: rest =>
      match objGet ctx.vars s0 with
      | none => none
      | some parent =>
        let last := (s0 :: rest).getLastD []
        let mids := ((s0 :: rest).drop 1).take ((s0 :: rest).length - 2)
        match valueWalk parent mids with
        | none => none
        | some final =>
          match final.asObject with
          | none => none
          | some o => objGet o last
  | .single s => objGet ctx.vars s

/-- Render-time errors, mirroring `context::Error`. -/
inductive CtxError where
  | parse (e : PError)
  | missingVariable (v : Variable)
  | triedToExpandObject (v : Variable)
deriving DecidableEq

/-- `Context::expand`: resolve, reject objects, return the leaf text. -/
def Context.expand (ctx : Context) (var : Variable) : Except CtxError (List Char) :=
  match ctx.getValue var with
  | none => .error (.missingVariable var)
  | some (.obj _) => .error (.triedToExpandObject var)
  | some (.str s) => .ok s

/-- The token-consuming loop of `Context::render`; `none` models a tokenizer
panic (or exhausted fuel, which the fuel `render` supplies rules out). -/
def renderF (ctx : Context) : Nat → Tokenize → List Char → Option (Except CtxError (List Char))
  | 0, _, _ => none
  | fuel+1, s, acc =>
    match Tokenize.next s with
    | .done => some (.ok acc)
    | .oob => none
    | .item (.error e) _ => some (.error (.parse e))
    | .item (.ok (.str t)) s2 => renderF ctx fuel s2 (acc ++ t)
    | .item (.ok (.variable v)) s2 =>
      match ctx.expand v with
      | .error e => some (.error e)
      | .ok t => renderF ctx fuel s2 (acc ++ t)

/-- `Context::render`: drive the tokenizer, append literal text verbatim and
expanded variables, stopping at the first error. -/
def Context.render (ctx : Context) (input : List Char) : Option (Except CtxError (List Char)) :=
  renderF ctx (2 * input.length + 4) (Tokenize.new input) []

/-- The nested object `{world: {test: "val"}}` used by the spec's deep-path
rendering example. -/
def helloVal : Value :=
  .obj [("world".data, .obj [("test".data, .str "val".data)])]

/-- The textual form of a run of further path segments, each preceded by a
dot: `"" ++ ".b" ++ ".c" ++ …`.  Used to describe the suffix the
multi-segment loop of `parse_with_terminator` consumes. -/
def dottedTail : List (List Char) → List Char
  | [] => []
  | seg :: rest => '.' :: (seg ++ dottedTail rest)

/-! ### Shared facts about the embedded scanners -/

theorem getD_drop_zero (l : List Char) (n : Nat) (d : Char) :
    l.getD n d = (l.drop n).getD 0 d := by
  induction l generalizing n with
  | nil => cases n <;> rfl
  | cons c rest ih =>
    cases n with
    | zero => rfl
    | succ m => exact ih m

theorem ident_not_space {c : Char} (h : isValidIdentifierCh c = true) : c ≠ ' ' := by
  intro hc
  rw [hc] at h
  exact absurd h (by decide)

theorem ident_not_dot {c : Char} (h : isValidIdentifierCh c = true) : c ≠ '.' := by
  intro hc
  rw [hc] at h
  exact absurd h (by decide)

theorem ident_not_newline {c : Char} (h : isValidIdentifierCh c = true) : c ≠ '\n' := by
  intro hc
  rw [hc] at h
  exact absurd h (by decide)

theorem validRun_of_ident {c : Char} (h : isValidIdentifierCh c = true) :
    validRunCh c = true := by
  simp [validRunCh, h]

theorem segScan_all (xs : List Char) :
    ∀ off : Nat, (∀ c ∈ xs, isValidIdentifierCh c = true) →
      segScan xs off = .ok (off + xs.length) := by
  induction xs with
  | nil => intro off h; simp [segScan]
  | cons c rest ih =>
    intro off h
    have hc : isValidIdentifierCh c = true := h c (by simp)
    rw [segScan, if_neg (ident_not_newline hc), if_neg (by simp [hc]),
      ih (off + 1) (fun x hx => h x (by simp [hx]))]
    simp [Nat.add_comm, Nat.add_assoc, Nat.add_left_comm]

theorem segScan_stop (xs : List Char) :
    ∀ (off : Nat) (r : Char) (rs : List Char),
      (∀ c ∈ xs, isValidIdentifierCh c = true) →
      isValidIdentifierCh r = false → r ≠ '\n' → (xs = [] → off ≠ 0) →
      segScan (xs ++ r :: rs) off = .ok (off + xs.length) := by
  induction xs with
  | nil =>
    intro off r rs _ hr hrn hoff
    rw [List.nil_append, segScan, if_neg hrn, if_pos (by simp [hr]),
      if_neg (hoff rfl)]
    simp
  | cons c rest ih =>
    intro off r rs h hr hrn _
    have hc : isValidIdentifierCh c = true := h c (by simp)
    rw [List.cons_append, segScan, if_neg (ident_not_newline hc), if_neg (by simp [hc]),
      ih (off + 1) r rs (fun x hx => h x (by simp [hx])) hr hrn (by simp)]
    simp [Nat.add_comm, Nat.add_assoc, Nat.add_left_comm]

theorem tpvs_all (xs : List Char) (hne : xs ≠ [])
    (hall : ∀ c ∈ xs, isValidIdentifierCh c = true) :
    tryParseVariableSegment xs = .ok xs := by
  rw [tryParseVariableSegment, if_neg hne, segScan_all xs 0 hall]
  simp

theorem tpvs_prefix (xs : List Char) (r : Char) (rs : List Char) (hne : xs ≠ [])
    (hall : ∀ c ∈ xs, isValidIdentifierCh c = true)
    (hr : isValidIdentifierCh r = false) (hrn : r ≠ '\n') :
    tryParseVariableSegment (xs ++ r :: rs) = .ok xs := by
  rw [tryParseVariableSegment, if_neg (by simp),
    segScan_stop xs 0 r rs hall hr hrn (fun hx => absurd hx hne)]
  simp [List.take_left]

theorem spaceDot_spaces (sp : List Char) :
    (∀ c ∈ sp, c = ' ') → ∀ r : List Char,
      spaceDotScan (sp ++ '.' :: r) true = (true, true) := by
  induction sp with
  | nil => intro _ r; rfl
  | cons c rest ih =>
    intro h r
    have hc : c = ' ' := h c (by simp)
    rw [List.cons_append, spaceDotScan, if_pos hc]
    exact ih (fun x hx => h x (by simp [hx])) r

theorem dottedTail_valid (rest : List (List Char)) :
    (∀ seg ∈ rest, ∀ c ∈ seg, isValidIdentifierCh c = true) →
    ∀ ch ∈ dottedTail rest, validRunCh ch = true := by
  induction rest with
  | nil => intro _ ch hch; simp [dottedTail] at hch
  | cons seg rs ih =>
    intro h ch hch
    simp only [dottedTail, List.mem_cons, List.mem_append] at hch
    rcases hch with h1 | h2 | h3
    · rw [h1]; decide
    · exact validRun_of_ident (h seg (by simp) ch h2)
    · exact ih (fun s hs => h s (by simp [hs])) ch h3

theorem pwLoop_dotted (rest : List (List Char)) :
    ∀ (fuel g : Nat) (chars : List Char) (head : Nat) (acc : List (List Char)),
      1 ≤ g →
      (∀ seg ∈ rest, seg ≠ [] ∧ ∀ c ∈ seg, isValidIdentifierCh c = true) →
      chars.drop head = dottedTail rest →
      2 * rest.length + 1 ≤ fuel →
      pwLoopF (pwtF g) fuel chars chars.length acc head = .ok (acc ++ rest) := by
  induction rest with
  | nil =>
    intro fuel g chars head acc hg hsegs hdrop hfuel
    obtain ⟨f, rfl⟩ : ∃ f, fuel = f + 1 := ⟨fuel - 1, by omega⟩
    obtain ⟨g2, rfl⟩ : ∃ g2, g = g2 + 1 := ⟨g - 1, by omega⟩
    have hgd : chars.getD head ' ' = ' ' := by
      rw [getD_drop_zero, hdrop]; rfl
    have hnest : isOkB (pwtF (g2 + 1) ([] : List Char) false) = false := rfl
    rw [pwLoopF, if_pos (Or.inr hgd)]
    simp [hdrop, hnest, dottedTail]
  | cons r rs ih =>
    intro fuel g chars head acc hg hsegs hdrop hfuel
    simp only [List.length_cons] at hfuel
    obtain ⟨f, rfl⟩ : ∃ f, fuel = f + 1 := ⟨fuel - 1, by omega⟩
    obtain ⟨f2, rfl⟩ : ∃ f2, f = f2 + 1 := ⟨f - 1, by omega⟩
    have hr := hsegs r (by simp)
    obtain ⟨r0, rt, hrshape⟩ := List.exists_cons_of_ne_nil hr.1
    have hr0 : isValidIdentifierCh r0 = true := hr.2 r0 (by rw [hrshape]; simp)
    have hdtail : dottedTail (r :: rs) = '.' :: (r ++ dottedTail rs) := rfl
    have hlt : ¬ chars.length ≤ head := by
      intro hle
      rw [List.drop_eq_nil_iff.mpr hle, hdtail] at hdrop
      exact absurd hdrop (by simp)
    have hgd : chars.getD head ' ' = '.' := by
      rw [getD_drop_zero, hdrop, hdtail]; rfl
    have hcond1 : ¬(head = chars.length ∨ chars.getD head ' ' = ' ') := by
      push_neg
      exact ⟨by omega, by rw [hgd]; decide⟩
    have hdrop1 : chars.drop (head + 1) = r ++ dottedTail rs := by
      rw [← List.drop_drop 1 head chars, hdrop, hdtail]
      rfl
    have hlt1 : ¬ chars.length ≤ head + 1 := by
      intro hle
      rw [List.drop_eq_nil_iff.mpr hle, hrshape] at hdrop1
      exact absurd hdrop1 (by simp)
    have hgd1 : chars.getD (head + 1) ' ' = r0 := by
      rw [getD_drop_zero, hdrop1, hrshape]; rfl
    have hcond2 : ¬(head + 1 = chars.length ∨ chars.getD (head + 1) ' ' = ' ') := by
      push_neg
      exact ⟨by omega, by rw [hgd1]; exact ident_not_space hr0⟩
    rw [pwLoopF, if_neg hcond1, if_pos hgd, if_neg hcond2]
    have hsegparse : tryParseVariableSegment (chars.drop (head + 1)) = .ok r := by
      rw [hdrop1]
      cases rs with
      | nil =>
        rw [show dottedTail [] = [] from rfl, List.append_nil]
        exact tpvs_all r hr.1 hr.2
      | cons r2 rs2 =>
        rw [show dottedTail (r2 :: rs2) = '.' :: (r2 ++ dottedTail rs2) from rfl]
        exact tpvs_prefix r '.' _ hr.1 hr.2 (by decide) (by decide)
    have hnd1 : ¬ chars.getD (head + 1) ' ' = '.' := by
      rw [hgd1]; exact ident_not_dot hr0
    rw [pwLoopF, if_neg hcond2, if_neg hnd1, hsegparse]
    have hdrop2 : chars.drop (head + 1 + r.length) = dottedTail rs := by
      rw [← List.drop_drop r.length (head + 1) chars, hdrop1, List.drop_left]
    have hfuel2 : 2 * rs.length + 1 ≤ f2 := by omega
    have hrec := ih f2 g chars (head + 1 + r.length) (acc ++ [r]) hg
      (fun s hs => hsegs s (by simp [hs])) hdrop2 hfuel2
    show pwLoopF (pwtF g) f2 chars chars.length (acc ++ [r]) (head + 1 + r.length)
      = .ok (acc ++ r :: rs)
    rw [hrec]
    simp

theorem pwtF_entry_firstseg (s seg r : List Char) (hs : s = seg ++ r)
    (hseg : seg ≠ []) (hvseg : ∀ c ∈ seg, isValidIdentifierCh c = true)
    (hall : ∀ c ∈ s, validRunCh c = true)
    (r0 : Char) (rt : List Char) (hr : r = r0 :: rt)
    (hr0inv : isValidIdentifierCh r0 = false) (hr0nl : r0 ≠ '\n') :
    pwtF (s.length + 1) s true =
      (if ((spaceDotScan r false).1 = true ∨ seg.length = s.length) ∧
          (spaceDotScan r false).2 = true then
        .error (mkErr seg.length 0 .spaceInPath)
      else if seg.length = s.length then .ok (.single seg)
      else
        match pwLoopF (pwtF s.length) (s.length + 1) s s.length [seg] seg.length with
        | .error e => .error e
        | .ok segs =>
          match segs with
          | [x] => .ok (.single x)
          | other => .ok (.segments other)) := by
  subst hs
  have hone : 1 ≤ seg.length := List.length_pos.mpr hseg
  have htw : (seg ++ r).takeWhile validRunCh = seg ++ r :=
    List.takeWhile_eq_self_iff.mpr hall
  have htp : tryParseVariableSegment (seg ++ r) = .ok seg := by
    rw [hr]; exact tpvs_prefix seg r0 rt hseg hvseg hr0inv hr0nl
  have hdropA : (seg ++ r).drop seg.length = r := List.drop_left seg r
  simp only [pwtF, htw, htp, hdropA]
  rw [if_neg (by simp), if_neg (by rw [List.length_append]; omega)]

theorem pwt_threeSeg (a b c : List Char)
    (ha : a ≠ []) (hb : b ≠ []) (hc : c ≠ [])
    (hva : ∀ ch ∈ a, isValidIdentifierCh ch = true)
    (hvb : ∀ ch ∈ b, isValidIdentifierCh ch = true)
    (hvc : ∀ ch ∈ c, isValidIdentifierCh ch = true) :
    Variable.fromStr (a ++ dottedTail [b, c]) = .ok (.segments [a, b, c]) := by
  have hlena : 1 ≤ a.length := List.length_pos.mpr ha
  have hlenb : 1 ≤ b.length := List.length_pos.mpr hb
  have hlenc : 1 ≤ c.length := List.length_pos.mpr hc
  have hlen : (a ++ dottedTail [b, c]).length = a.length + b.length + c.length + 2 := by
    show (a ++ '.' :: (b ++ '.' :: (c ++ []))).length = _
    simp [List.length_append]
    omega
  have hsegs : ∀ seg ∈ [b, c], seg ≠ [] ∧ ∀ ch ∈ seg, isValidIdentifierCh ch = true := by
    intro seg hseg
    rcases List.mem_cons.mp hseg with rfl | hseg2
    · exact ⟨hb, hvb⟩
    · rcases List.mem_cons.mp hseg2 with rfl | h3
      · exact ⟨hc, hvc⟩
      · simp at h3
  have hall : ∀ ch ∈ a ++ dottedTail [b, c], validRunCh ch = true := by
    intro ch hch
    rcases List.mem_append.mp hch with h1 | h2
    · exact validRun_of_ident (hva ch h1)
    · exact dottedTail_valid [b, c] (fun seg hseg => (hsegs seg hseg).2) ch h2
  have hdropA : (a ++ dottedTail [b, c]).drop a.length = dottedTail [b, c] :=
    List.drop_left a _
  have hentry := pwtF_entry_firstseg (a ++ dottedTail [b, c]) a (dottedTail [b, c]) rfl
    ha hva hall '.' (b ++ dottedTail [c]) rfl (by decide) (by decide)
  have hsd : spaceDotScan (dottedTail [b, c]) false = (false, true) := rfl
  have hloop := pwLoop_dotted [b, c] ((a ++ dottedTail [b, c]).length + 1)
    (a ++ dottedTail [b, c]).length (a ++ dottedTail [b, c]) a.length [a]
    (by omega) hsegs hdropA (by simp only [List.length_cons, List.length_nil]; omega)
  have hnc1 : ¬((((false : Bool), (true : Bool)).1 = true ∨
      a.length = (a ++ dottedTail [b, c]).length) ∧
      (((false : Bool), (true : Bool)).2 = true)) := by
    intro h
    rcases h.1 with h1 | h1
    · exact absurd h1 (by decide)
    · omega
  show pwtF ((a ++ dottedTail [b, c]).length + 1) (a ++ dottedTail [b, c]) true = _
  rw [hentry, hsd]
  rw [if_neg hnc1, if_neg (by omega), hloop]
  rfl

/-! ### Claims C4, C8, C9: path display/parse round trip and separator errors -/

/-- C4 (counterexample): the round-trip property fails as stated.  The part
`"c "` is non-empty and contains no dot, so `Variable::from_parts` accepts
it, but displaying gives `"a.b.c "` whose parse drops the trailing space:
parsing returns the path `a.b.c`, not the original path whose last part is
`"c "`. -/
theorem c4_roundtrip_counterexample :
    Variable.fromStr (Variable.display (Variable.fromParts ["a".data, "b".data, "c ".data]))
      ≠ .ok (Variable.fromParts ["a".data, "b".data, "c ".data]) := by
  decide

/-- C4 (amended): for parts `[a, b, c]`, each non-empty and consisting only
of identifier characters (rather than merely dot-free), displaying the path
built by `Variable::from_parts` yields the parts joined by dots, and parsing
that display back with `Variable::from_str` returns the same path. -/
theorem c4_roundtrip_amended :
    ∀ a b c : List Char,
      a ≠ [] → b ≠ [] → c ≠ [] →
      (∀ ch ∈ a, isValidIdentifierCh ch = true) →
      (∀ ch ∈ b, isValidIdentifierCh ch = true) →
      (∀ ch ∈ c, isValidIdentifierCh ch = true) →
      Variable.display (Variable.fromParts [a, b, c]) = a ++ ('.' :: (b ++ ('.' :: c))) ∧
      Variable.fromStr (Variable.display (Variable.fromParts [a, b, c]))
        = .ok (Variable.fromParts [a, b, c]) := by
  intro a b c ha hb hc hva hvb hvc
  have hfp : Variable.fromParts [a, b, c] = .segments [a, b, c] := rfl
  have hdisp : Variable.display (Variable.fromParts [a, b, c]) = a ++ dottedTail [b, c] := by
    show List.intercalate ['.'] [a, b, c] = _
    simp [List.intercalate, List.intersperse, dottedTail]
  refine ⟨?_, ?_⟩
  · rw [hdisp]
    simp [dottedTail]
  · rw [hdisp, hfp]
    exact pwt_threeSeg a b c ha hb hc hva hvb hvc

/-- C4 (witness): the amended round trip at the concrete parts `x`, `y`,
`z`. -/
theorem c4_roundtrip_amended_witness :
    Variable.display (Variable.fromParts ["x".data, "y".data, "z".data])
        = "x".data ++ ('.' :: ("y".data ++ ('.' :: "z".data))) ∧
    Variable.fromStr (Variable.display (Variable.fromParts ["x".data, "y".data, "z".data]))
        = .ok (Variable.fromParts ["x".data, "y".data, "z".data]) :=
  c4_roundtrip_amended "x".data "y".data "z".data (by decide) (by decide) (by decide)
    (by decide) (by decide) (by decide)

/-- C8 (counterexample): an embedded space followed later by a dot is not
always an error.  In `"a.b .c"` the space at offset 3 is followed by a dot
at offset 4, yet `Variable::from_str` does not fail with `SpaceInPath` at
the space: it succeeds, returning the path `a.b` (the residual `" .c"`
fails the too-many-variables lookahead probe and is silently dropped). -/
theorem c8_space_dot_counterexample :
    Variable.fromStr "a.b .c".data = .ok (.segments ["a".data, "b".data]) := by
  decide

/-- C8 (amended): the space/dot check applies to spaces directly following
the *first* segment: whenever the first segment is followed by one or more
spaces and then a dot, `Variable::from_str` fails with `SpaceInPath` at the
offset of the first such space (the end of the first segment); in
particular `parse("a .b")` fails at column 1. -/
theorem c8_space_dot_amended :
    ∀ seg sp rest : List Char,
      seg ≠ [] → (∀ ch ∈ seg, isValidIdentifierCh ch = true) →
      sp ≠ [] → (∀ ch ∈ sp, ch = ' ') →
      (∀ ch ∈ rest, validRunCh ch = true) →
      Variable.fromStr (seg ++ (sp ++ '.' :: rest))
        = .error (mkErr seg.length 0 .spaceInPath) := by
  intro seg sp rest hseg hvseg hsp hspall hvrest
  obtain ⟨p0, pt, hpshape⟩ := List.exists_cons_of_ne_nil hsp
  have hp0 : p0 = ' ' := hspall p0 (by rw [hpshape]; simp)
  have hall : ∀ ch ∈ seg ++ (sp ++ '.' :: rest), validRunCh ch = true := by
    intro ch hch
    rcases List.mem_append.mp hch with h1 | h2
    · exact validRun_of_ident (hvseg ch h1)
    · rcases List.mem_append.mp h2 with h3 | h4
      · rw [hspall ch h3]; decide
      · rcases List.mem_cons.mp h4 with rfl | h5
        · decide
        · exact hvrest ch h5
  have hentry := pwtF_entry_firstseg (seg ++ (sp ++ '.' :: rest)) seg (sp ++ '.' :: rest)
    rfl hseg hvseg hall p0 (pt ++ '.' :: rest) (by rw [hpshape]; simp)
    (by rw [hp0]; decide) (by rw [hp0]; decide)
  have hsd : spaceDotScan (sp ++ '.' :: rest) false = (true, true) := by
    rw [hpshape, hp0, List.cons_append, spaceDotScan, if_pos rfl]
    exact spaceDot_spaces pt (fun x hx => hspall x (by rw [hpshape]; simp [hx])) rest
  show pwtF ((seg ++ (sp ++ '.' :: rest)).length + 1) (seg ++ (sp ++ '.' :: rest)) true = _
  rw [hentry, hsd, if_pos ⟨Or.inl rfl, rfl⟩]

/-- C8 (witness): the amended statement at `"a .b"` gives `SpaceInPath` at
column 1, the offset of the space. -/
theorem c8_space_dot_amended_witness :
    Variable.fromStr ("a".data ++ ([' '] ++ '.' :: "b".data))
      = .error (mkErr 1 0 .spaceInPath) :=
  c8_space_dot_amended "a".data [' '] "b".data (by decide) (by decide) (by decide)
    (by decide) (by decide)

/-- C9 (counterexample): spaces after a dot separator are not skipped.  In
`"a. b"` the dot at offset 1 is followed by a space and then the segment
`b`; the claim's skipping rule would parse this as the path `a.b`, but the
code fails with `EmptyVariableSegment` at the dot's offset whenever a space
directly follows a dot, segment or no segment after it. -/
theorem c9_dot_space_counterexample :
    Variable.fromStr "a. b".data = .error (mkErr 1 0 .emptyVariableSegment) := by
  decide

/-- C9 (amended): a `.` separator is skipped (with no space skipping); a
`.` that sits at the end of the run, or that is immediately followed by a
space, fails with `EmptyVariableSegment` at the offset of that dot.  In
particular `parse("x.")` fails at the offset of the trailing dot,
column 1. -/
theorem c9_dot_handling_amended :
    (∀ seg : List Char,
      seg ≠ [] → (∀ ch ∈ seg, isValidIdentifierCh ch = true) →
      Variable.fromStr (seg ++ ['.'])
        = .error (mkErr seg.length 0 .emptyVariableSegment)) ∧
    (∀ seg rest : List Char,
      seg ≠ [] → (∀ ch ∈ seg, isValidIdentifierCh ch = true) →
      (∀ ch ∈ rest, validRunCh ch = true) →
      Variable.fromStr (seg ++ ('.' :: ' ' :: rest))
        = .error (mkErr seg.length 0 .emptyVariableSegment)) := by
  constructor
  · intro seg hseg hvseg
    have hlen : (seg ++ ['.']).length = seg.length + 1 := by simp
    have hall : ∀ ch ∈ seg ++ ['.'], validRunCh ch = true := by
      intro ch hch
      rcases List.mem_append.mp hch with h1 | h2
      · exact validRun_of_ident (hvseg ch h1)
      · rcases List.mem_singleton.mp h2 with rfl
        decide
    have hentry := pwtF_entry_firstseg (seg ++ ['.']) seg ['.'] rfl hseg hvseg hall
      '.' [] rfl (by decide) (by decide)
    have hdropA : (seg ++ ['.']).drop seg.length = ['.'] := List.drop_left seg _
    have hgd : (seg ++ ['.']).getD seg.length ' ' = '.' := by
      rw [getD_drop_zero, hdropA]; rfl
    have hloop : pwLoopF (pwtF (seg ++ ['.']).length) ((seg ++ ['.']).length + 1)
        (seg ++ ['.']) (seg ++ ['.']).length [seg] seg.length
        = .error (mkErr seg.length 0 .emptyVariableSegment) := by
      rw [pwLoopF, if_neg ?hc1, if_pos hgd, if_pos (Or.inl (by omega))]
      case hc1 =>
        push_neg
        refine ⟨by omega, ?_⟩
        rw [hgd]; decide
    have hnc1 : ¬((((false : Bool), (true : Bool)).1 = true ∨
        seg.length = (seg ++ ['.']).length) ∧
        (((false : Bool), (true : Bool)).2 = true)) := by
      intro h
      rcases h.1 with h1 | h1
      · exact absurd h1 (by decide)
      · omega
    show pwtF ((seg ++ ['.']).length + 1) (seg ++ ['.']) true = _
    rw [hentry, show spaceDotScan ['.'] false = (false, true) from rfl,
      if_neg hnc1, if_neg (by omega), hloop]
  · intro seg rest hseg hvseg hvrest
    have hlen : (seg ++ ('.' :: ' ' :: rest)).length = seg.length + (rest.length + 2) := by
      simp [List.length_append]
    have hall : ∀ ch ∈ seg ++ ('.' :: ' ' :: rest), validRunCh ch = true := by
      intro ch hch
      rcases List.mem_append.mp hch with h1 | h2
      · exact validRun_of_ident (hvseg ch h1)
      · rcases List.mem_cons.mp h2 with rfl | h3
        · decide
        · rcases List.mem_cons.mp h3 with rfl | h4
          · decide
          · exact hvrest ch h4
    have hentry := pwtF_entry_firstseg (seg ++ ('.' :: ' ' :: rest)) seg ('.' :: ' ' :: rest)
      rfl hseg hvseg hall '.' (' ' :: rest) rfl (by decide) (by decide)
    have hdropA : (seg ++ ('.' :: ' ' :: rest)).drop seg.length = '.' :: ' ' :: rest :=
      List.drop_left seg _
    have hgd : (seg ++ ('.' :: ' ' :: rest)).getD seg.length ' ' = '.' := by
      rw [getD_drop_zero, hdropA]; rfl
    have hdrop1 : (seg ++ ('.' :: ' ' :: rest)).drop (seg.length + 1) = ' ' :: rest := by
      rw [← List.drop_drop 1 seg.length _, hdropA]
      rfl
    have hgd1 : (seg ++ ('.' :: ' ' :: rest)).getD (seg.length + 1) ' ' = ' ' := by
      rw [getD_drop_zero, hdrop1]; rfl
    have hloop : pwLoopF (pwtF (seg ++ ('.' :: ' ' :: rest)).length)
        ((seg ++ ('.' :: ' ' :: rest)).length + 1) (seg ++ ('.' :: ' ' :: rest))
        (seg ++ ('.' :: ' ' :: rest)).length [seg] seg.length
        = .error (mkErr seg.length 0 .emptyVariableSegment) := by
      rw [pwLoopF, if_neg ?hc1, if_pos hgd, if_pos (Or.inr hgd1)]
      case hc1 =>
        push_neg
        refine ⟨by omega, ?_⟩
        rw [hgd]; decide
    have hnc1 : ¬((((false : Bool), (true : Bool)).1 = true ∨
        seg.length = (seg ++ ('.' :: ' ' :: rest)).length) ∧
        (((false : Bool), (true : Bool)).2 = true)) := by
      intro h
      rcases h.1 with h1 | h1
      · exact absurd h1 (by decide)
      · omega
    show pwtF ((seg ++ ('.' :: ' ' :: rest)).length + 1) (seg ++ ('.' :: ' ' :: rest)) true = _
    rw [hentry, show spaceDotScan ('.' :: ' ' :: rest) false = (false, true) from rfl,
      if_neg hnc1, if_neg (by omega), hloop]

/-- C9 (witness): `parse("x.")` fails with `EmptyVariableSegment` at the
trailing dot, column 1. -/
theorem c9_dot_handling_amended_witness :
    Variable.fromStr ("x".data ++ ['.']) = .error (mkErr 1 0 .emptyVariableSegment) :=
  c9_dot_handling_amended.1 "x".data (by decide) (by decide)

/-! ### Claims C5, C10: tokenizer error stickiness and the unchecked index -/

theorem advanceState_varNext (s : Tokenize) : (advanceState s).varNext = s.varNext := by
  unfold advanceState
  split <;> rfl

theorem tokLoopF_error_state :
    ∀ (f : Nat) (s : Tokenize) (e : PError) (s2 : Tokenize),
      tokLoopF f s = .item (.error e) s2 →
      s2.hitError = true ∧ s2.varNext = s.varNext := by
  intro f
  induction f with
  | zero =>
    intro s e s2 h
    exact absurd h (by simp [tokLoopF])
  | succ f ih =>
    intro s e s2 h
    rw [tokLoopF] at h
    split at h
    · split at h
      · split at h
        · simp at h
        · split at h
          · split at h
            · split at h
              · simp at h
              · simp at h
            · injection h with h1 h2
              injection h1 with h3
              subst h2
              subst h3
              exact ⟨rfl, rfl⟩
            · have hr := ih _ e s2 h
              exact ⟨hr.1, hr.2.trans (advanceState_varNext s)⟩
          · have hr := ih _ e s2 h
            exact ⟨hr.1, hr.2.trans (advanceState_varNext s)⟩
      · have hr := ih _ e s2 h
        exact ⟨hr.1, hr.2.trans (advanceState_varNext s)⟩
    · split at h
      · simp at h
      · simp at h

theorem next_eq_tokLoop (s : Tokenize) (hv : s.varNext = none) (he : s.hitError = false)
    (hlt : ¬ s.chars.length ≤ s.head) :
    Tokenize.next s = tokLoopF (s.chars.length + 1 - s.head) s := by
  simp only [Tokenize.next, hv, he]
  rw [if_neg (by simp), if_neg hlt]

/-- C5: once `Tokenize::next` has yielded an error, the successor state
yields nothing: any state that produces an `Err` item has `hit_error` set in
the successor, whose `next` is `None` (and, `next` being a pure function of
the state, every subsequent call yields `None` as well — so at most one
`Err` item is ever produced and no token follows it).  Concretely,
tokenizing `"{{invalid. }} rest"` yields the `EmptyVariableSegment` error at
column 9 and then nothing. -/
theorem c5_sticky_error :
    (∀ (s : Tokenize) (e : PError) (s2 : Tokenize),
        Tokenize.next s = .item (.error e) s2 → Tokenize.next s2 = .done) ∧
    (Tokenize.next (Tokenize.new "\x7b\x7binvalid. \x7d\x7d rest".data)
        = .item (.error (mkErr 9 0 .emptyVariableSegment))
          { Tokenize.new "\x7b\x7binvalid. \x7d\x7d rest".data with hitError := true } ∧
      Tokenize.next { Tokenize.new "\x7b\x7binvalid. \x7d\x7d rest".data with hitError := true }
        = .done) := by
  refine ⟨?_, by decide, by decide⟩
  intro s e s2 h
  cases hv : s.varNext with
  | some v =>
    simp [Tokenize.next, hv] at h
  | none =>
    simp only [Tokenize.next, hv] at h
    by_cases he : s.hitError = true
    · rw [if_pos he] at h
      simp at h
    · rw [if_neg he] at h
      by_cases hh : s.chars.length ≤ s.head
      · rw [if_pos hh] at h
        split at h
        · simp at h
        · simp at h
      · rw [if_neg hh] at h
        obtain ⟨h1, h2⟩ := tokLoopF_error_state _ s e s2 h
        simp [Tokenize.next, h2, hv, h1]

/-- C5 (witness): the sticky-error step applied to the errored state of the
concrete input. -/
theorem c5_sticky_error_witness :
    Tokenize.next { Tokenize.new "\x7b\x7binvalid. \x7d\x7d rest".data with hitError := true }
      = .done :=
  c5_sticky_error.1 (Tokenize.new "\x7b\x7binvalid. \x7d\x7d rest".data)
    (mkErr 9 0 .emptyVariableSegment)
    { Tokenize.new "\x7b\x7binvalid. \x7d\x7d rest".data with hitError := true }
    (by decide)

/-- C10: when the byte at `head` is `'{'`, `Tokenize::next` reads index
`head + 1` without a bounds check; for a state whose final byte is `'{'`
reached as literal text the access is out of bounds (`List.get?` yields
`none`) and `next` is not total there — it takes the modelled panic
outcome.  Concretely the whole tokenization of `"a{"` ends in the panic
outcome. -/
theorem c10_head_plus_one_oob :
    (∀ s : Tokenize, s.varNext = none → s.hitError = false →
        s.head + 1 = s.chars.length → s.chars.getD s.head ' ' = '{' →
        Tokenize.next s = .oob) ∧
    tokenize "a\x7b".data = none := by
  refine ⟨?_, by decide⟩
  intro s hv he hh hgd
  have hlt : ¬ s.chars.length ≤ s.head := by omega
  rw [next_eq_tokLoop s hv he hlt,
    show s.chars.length + 1 - s.head = 2 from by omega, tokLoopF,
    if_pos (show s.head < s.chars.length from by omega), if_pos hgd,
    show s.chars.get? (s.head + 1) = none from List.get?_eq_none.mpr (by omega)]

/-- C10 (witness): the out-of-bounds step at the concrete state reached by
scanning `"a{"` up to its final byte. -/
theorem c10_head_plus_one_oob_witness :
    Tokenize.next ⟨"a\x7b".data, 1, 0, 0, 1, false, none⟩ = .oob :=
  c10_head_plus_one_oob.1 ⟨"a\x7b".data, 1, 0, 0, 1, false, none⟩ rfl rfl (by decide)
    (by decide)

/-! ### Claims C6, C7: literal text handling -/

/-- C6 (code bug): rendering the placeholder-free template `"a"` does not
return the template unchanged.  The end-of-input flush guards on
`tail != chars.len() - 1`, a sentinel that collides with a pending literal
of exactly one byte, so the final `Str` token is silently dropped and the
render returns the empty string instead of `"a"`. -/
theorem c6_trailing_char_dropped :
    Context.render ⟨[]⟩ "a".data = some (.ok []) ∧ "a".data ≠ ([] : List Char) := by
  exact ⟨by decide, by decide⟩

/-- C7 (counterexample): a `{{` that is never followed by `}}` can still
produce an error rather than falling through to literal text: in the
template `"{{a .b"` there is no closing `}}`, yet tokenization fails with
`SpaceInPath` (the path parse inside the recognized opener fails before the
scan for `}}` ever happens). -/
theorem c7_unclosed_error_counterexample :
    tokenize "\x7b\x7ba .b".data = some (.error (mkErr 3 0 .spaceInPath)) := by
  decide

theorem ptiScanF_none :
    ∀ (f : Nat) (input : List Char) (v : Variable) (head : Nat),
      (∀ i, head ≤ i → i + 1 < input.length →
        ¬(input.getD i ' ' = '}' ∧ input.getD (i + 1) ' ' = '}')) →
      ptiScanF input v f head = none := by
  intro f
  induction f with
  | zero => intro input v head _; rfl
  | succ f ih =>
    intro input v head h
    rw [ptiScanF]
    by_cases h1 : head < input.length - 1
    · rw [if_pos h1, if_neg (h head (Nat.le_refl head) (by omega))]
      exact ih input v (head + 1) (fun i hi hlen => h i (by omega) hlen)
    · rw [if_neg h1]

/-- C7 (amended): the no-error literal fallthrough holds when the text
after the `{{` parses as a variable path: if `parse_with_terminator`
succeeds on the text after the skipped leading spaces and no `}}` occurs at
any position the closing scan visits, `parse_template_inner` returns `None`
(not a placeholder, no error), and the tokenizer treats the text as
literal — e.g. `"a{{b"` tokenizes to the single `Str` token `"a{{b"`. -/
theorem c7_unclosed_amended :
    (∀ (input : List Char) (v : Variable),
        parseWithTerminator
            (input.drop ((input.takeWhile (fun c => c = ' ')).length)) false = .ok v →
        (∀ i, (input.takeWhile (fun c => c = ' ')).length + v.len ≤ i →
          i + 1 < input.length →
          ¬(input.getD i ' ' = '}' ∧ input.getD (i + 1) ' ' = '}')) →
        parseTemplateInner input = none) ∧
    tokenize "a\x7b\x7bb".data = some (.ok [.str "a\x7b\x7bb".data]) := by
  refine ⟨?_, by decide⟩
  intro input v hp hnone
  simp only [parseTemplateInner, hp]
  exact ptiScanF_none _ input v _ hnone

/-- C7 (witness): the amended fallthrough at the concrete inner text `"b"`
(the inside of the unclosed `"a{{b"`). -/
theorem c7_unclosed_amended_witness :
    parseTemplateInner "b".data = none :=
  c7_unclosed_amended.1 "b".data (.single "b".data) (by decide)
    (by
      intro i hi hlen
      have h1 : ("b".data).length = 1 := rfl
      omega)

/-! ### Claims C1, C3: context define / lookup / render -/

/-- C1: for every context in which the top-level name `hello` is mapped to
the object `{world: {test: "val"}}`, rendering `"{{hello.world.test}}"`
returns `Ok("val")`: the dotted path resolves through the nested objects to
the string leaf, whose text is substituted. -/
theorem c1_render_resolves_nested_path (ctx : Context)
    (h : objGet ctx.vars "hello".data = some helloVal) :
    ctx.render "\x7b\x7bhello.world.test\x7d\x7d".data = some (.ok "val".data) := by
  have hgv : ctx.getValue (.segments ["hello".data, "world".data, "test".data])
      = some (.str "val".data) := by
    simp only [Context.getValue]
    rw [h]
    rfl
  have hexp : ctx.expand (.segments ["hello".data, "world".data, "test".data])
      = .ok "val".data := by
    simp only [Context.expand]
    rw [hgv]
  have hr : ctx.render "\x7b\x7bhello.world.test\x7d\x7d".data
      = (match ctx.expand (.segments ["hello".data, "world".data, "test".data]) with
         | .error e => some (.error e)
         | .ok t => some (.ok t)) := rfl
  rw [hr, hexp]

/-- C1 (witness): the rendering at the context built by defining `hello` to
the nested object in an empty context. -/
theorem c1_render_resolves_nested_path_witness :
    ((Context.mk []).define (.single "hello".data) helloVal).render
        "\x7b\x7bhello.world.test\x7d\x7d".data = some (.ok "val".data) :=
  c1_render_resolves_nested_path
    ((Context.mk []).define (.single "hello".data) helloVal) rfl

/-- C3: after defining `a` to `{b: "c"}` and then `a.d` to `"f"`, the
lookups `a.b == "c"` and `a.d == "f"` both hold (missing intermediate
segments are created and unrelated properties preserved); then defining
`a.d.e` to any object forcibly replaces the string leaf at `a.d` with a
fresh object containing only `e` — the old leaf `"f"` is discarded — while
`a.b` is still `"c"` and `a.d.e` resolves to the new object. -/
theorem c3_define_merge_and_force_object :
    ∀ oX : List (List Char × Value),
      (((Context.mk []).define (.single "a".data)
          (.obj [("b".data, .str "c".data)])).define
          (.segments ["a".data, "d".data]) (.str "f".data)).getValue
          (.segments ["a".data, "b".data]) = some (.str "c".data) ∧
      (((Context.mk []).define (.single "a".data)
          (.obj [("b".data, .str "c".data)])).define
          (.segments ["a".data, "d".data]) (.str "f".data)).getValue
          (.segments ["a".data, "d".data]) = some (.str "f".data) ∧
      ((((Context.mk []).define (.single "a".data)
          (.obj [("b".data, .str "c".data)])).define
          (.segments ["a".data, "d".data]) (.str "f".data)).define
          (.segments ["a".data, "d".data, "e".data]) (.obj oX)).getValue
          (.segments ["a".data, "b".data]) = some (.str "c".data) ∧
      ((((Context.mk []).define (.single "a".data)
          (.obj [("b".data, .str "c".data)])).define
          (.segments ["a".data, "d".data]) (.str "f".data)).define
          (.segments ["a".data, "d".data, "e".data]) (.obj oX)).getValue
          (.segments ["a".data, "d".data]) = some (.obj [("e".data, .obj oX)]) ∧
      ((((Context.mk []).define (.single "a".data)
          (.obj [("b".data, .str "c".data)])).define
          (.segments ["a".data, "d".data]) (.str "f".data)).define
          (.segments ["a".data, "d".data, "e".data]) (.obj oX)).getValue
          (.segments ["a".data, "d".data, "e".data]) = some (.obj oX) := by
  intro oX
  exact ⟨rfl, rfl, rfl, rfl, rfl⟩

/-! ### Claim C2: render error behaviour -/

theorem renderF_not_ok :
    ∀ (f : Nat) (ctx : Context) (s : Tokenize) (acc : List Char) (toks : List Token),
      tokensFrom f s = some (.ok toks) →
      (∃ v, Token.variable v ∈ toks ∧ isOkB (ctx.expand v) = false) →
      ∃ e, renderF ctx f s acc = some (.error e) := by
  intro f
  induction f with
  | zero =>
    intro ctx s acc toks htok _
    exact absurd htok (by simp [tokensFrom])
  | succ f ih =>
    intro ctx s acc toks htok hbad
    obtain ⟨v, hvmem, hvbad⟩ := hbad
    cases hnext : Tokenize.next s with
    | done =>
      simp only [tokensFrom, hnext, Option.some.injEq, Except.ok.injEq] at htok
      subst htok
      exact absurd hvmem (by simp)
    | oob =>
      simp [tokensFrom, hnext] at htok
    | item x s2 =>
      rcases x with e | t
      · simp [tokensFrom, hnext] at htok
      · simp only [tokensFrom, hnext] at htok
        cases hrec : tokensFrom f s2 with
        | none => rw [hrec] at htok; simp at htok
        | some res =>
          rcases res with e2 | ts
          · rw [hrec] at htok; simp at htok
          · rw [hrec] at htok
            simp only [Option.some.injEq, Except.ok.injEq] at htok
            subst htok
            rcases t with v0 | t0
            · simp only [renderF, hnext]
              cases hexp : ctx.expand v0 with
              | error e0 =>
                exact ⟨e0, by simp only [hexp]⟩
              | ok t1 =>
                have hvrest : Token.variable v ∈ ts := by
                  rcases List.mem_cons.mp hvmem with h1 | h1
                  · injection h1 with h2
                    rw [h2, hexp] at hvbad
                    exact absurd hvbad (by simp [isOkB])
                  · exact h1
                simp only [hexp]
                exact ih ctx s2 (acc ++ t1) ts hrec ⟨v, hvrest, hvbad⟩
            · simp only [renderF, hnext]
              apply ih ctx s2 (acc ++ t0) ts hrec
              refine ⟨v, ?_, hvbad⟩
              rcases List.mem_cons.mp hvmem with h1 | h1
              · exact absurd h1 (by simp)
              · exact h1

theorem renderF_error_source :
    ∀ (f : Nat) (ctx : Context) (s : Tokenize) (acc : List Char) (toks : List Token)
      (e : CtxError),
      tokensFrom f s = some (.ok toks) →
      renderF ctx f s acc = some (.error e) →
      ∃ v, Token.variable v ∈ toks ∧ ctx.expand v = .error e := by
  intro f
  induction f with
  | zero =>
    intro ctx s acc toks e htok _
    exact absurd htok (by simp [tokensFrom])
  | succ f ih =>
    intro ctx s acc toks e htok hr
    cases hnext : Tokenize.next s with
    | done =>
      simp [renderF, hnext] at hr
    | oob =>
      simp [tokensFrom, hnext] at htok
    | item x s2 =>
      rcases x with e2 | t
      · simp [tokensFrom, hnext] at htok
      · simp only [tokensFrom, hnext] at htok
        cases hrec : tokensFrom f s2 with
        | none => rw [hrec] at htok; simp at htok
        | some res =>
          rcases res with e2 | ts
          · rw [hrec] at htok; simp at htok
          · rw [hrec] at htok
            simp only [Option.some.injEq, Except.ok.injEq] at htok
            subst htok
            rcases t with v0 | t0
            · simp only [renderF, hnext] at hr
              cases hexp : ctx.expand v0 with
              | error e0 =>
                rw [hexp] at hr
                simp only [Option.some.injEq, Except.error.injEq] at hr
                subst hr
                exact ⟨v0, by simp, hexp⟩
              | ok t1 =>
                rw [hexp] at hr
                obtain ⟨v, hvmem, hvexp⟩ := ih ctx s2 (acc ++ t1) ts e hrec hr
                exact ⟨v, by simp [hvmem], hvexp⟩
            · simp only [renderF, hnext] at hr
              obtain ⟨v, hvmem, hvexp⟩ := ih ctx s2 (acc ++ t0) ts e hrec hr
              exact ⟨v, by simp [hvmem], hvexp⟩

/-- C2: rendering fails whenever a variable token cannot be expanded, and a
failed render carries exactly the failing token's own expansion error;
resolution failures surface as `MissingVariable` naming the path and object
hits as `TriedToExpandObject` naming the path; a failed render yields only
the error — no `Ok` carrying partially built output is ever returned. -/
theorem c2_render_error_behaviour :
    (∀ (ctx : Context) (v : Variable), ctx.getValue v = none →
        ctx.expand v = .error (.missingVariable v)) ∧
    (∀ (ctx : Context) (v : Variable) (o : List (List Char × Value)),
        ctx.getValue v = some (.obj o) →
        ctx.expand v = .error (.triedToExpandObject v)) ∧
    (∀ (ctx : Context) (input : List Char) (toks : List Token),
        tokenize input = some (.ok toks) →
        (∃ v, Token.variable v ∈ toks ∧ isOkB (ctx.expand v) = false) →
        ∃ e, ctx.render input = some (.error e)) ∧
    (∀ (ctx : Context) (input : List Char) (toks : List Token) (e : CtxError),
        tokenize input = some (.ok toks) →
        ctx.render input = some (.error e) →
        ∃ v, Token.variable v ∈ toks ∧ ctx.expand v = .error e) := by
  refine ⟨?_, ?_, ?_, ?_⟩
  · intro ctx v h
    simp only [Context.expand, h]
  · intro ctx v o h
    simp only [Context.expand, h]
  · intro ctx input toks htok hbad
    exact renderF_not_ok (2 * input.length + 4) ctx (Tokenize.new input) [] toks htok hbad
  · intro ctx input toks e htok hr
    exact renderF_error_source (2 * input.length + 4) ctx (Tokenize.new input) [] toks e
      htok hr

/-- C2 (witness): in the empty context the variable `a` is missing, so
expanding it gives `MissingVariable` and rendering `"{{a}}"` fails with an
error (and no output). -/
theorem c2_render_error_behaviour_witness :
    (Context.mk []).expand (.single "a".data)
        = .error (.missingVariable (.single "a".data)) ∧
    ∃ e, (Context.mk []).render "\x7b\x7ba\x7d\x7d".data = some (.error e) :=
  ⟨c2_render_error_behaviour.1 (Context.mk []) (.single "a".data) rfl,
    c2_render_error_behaviour.2.2.1 (Context.mk []) "\x7b\x7ba\x7d\x7d".data
      [.variable (.single "a".data)] (by decide)
      ⟨.single "a".data, by decide, by decide⟩⟩
